import Mathlib

/-!
Verification of the paged block-transfer engine of the I2C_24LC1025 EEPROM
driver (`src/libraries/I2C_24LC1025/I2C_24LC1025.cpp`).

Machine integers are modelled as `Nat` with explicit reductions: `% U32`
for `uint32_t` arithmetic and `% U16` at the one place the source
implicitly converts a `uint32_t` length into the `uint16_t` parameter of
`_pageBlock`.  Every loop of the source is modelled as a structurally
recursive function on an explicit fuel argument; each loop strictly
decreases its remaining length by at least one byte per iteration, so fuel
equal to the initial length is always sufficient, and the wrappers supply
exactly that fuel.

Bus transactions are external collaborators.  Their outcomes are supplied
by oracles: a function giving the I2C status of the k-th write
transaction, a function giving the number of bytes the k-th read
transaction delivers, and a function giving the content of uninitialised
stack bytes that the source compares when a read comes up short.
-/

/-- Modulus of `uint32_t` arithmetic, 2^32. -/
def U32 : Nat := 4294967296

/-- Modulus of `uint16_t` arithmetic, 2^16. -/
def U16 : Nat := 65536

/-- Transfer buffer limit: `#define I2C_BUFFERSIZE 30` (the AVR/STM branch
of the source; the ESP32/ESP8266 branch defines 128 instead — the claims
are settled for the default 30-byte branch). -/
def I2C_BUFFERSIZE : Nat := 30

/-- Modelled from the spec: the page size constant `I2C_PAGESIZE_24LC1025`
is defined in the header `I2C_24LC1025.h`, which is not part of the
sources at hand; the spec fixes the page size to 128 bytes in its concrete
scenario (testable property 6). -/
def I2C_PAGESIZE_24LC1025 : Nat := 128

/-- Recovery constant: `#define I2C_WRITEDELAY 5000` (microseconds). -/
def I2C_WRITEDELAY : Nat := 5000

/-- The bank boundary of the 24LC1025: logical addresses at or above
0x10000 select the second bank (source: `_beginTransmission`,
`readBlock`). -/
def BANKSIZE : Nat := 65536

/-- One low-level write transaction issued by `_pageBlock`: the target
logical address, the offset into the source buffer, and the byte count. -/
structure Chunk where
  addr : Nat
  off : Nat
  cnt : Nat
deriving DecidableEq

/-- The chunk size computed at the head of the `_pageBlock` loop:
`uint8_t cnt = I2C_BUFFERSIZE; if (cnt > len) cnt = len;
if (cnt > bytesUntilPageBoundary) cnt = bytesUntilPageBoundary;`
with `bytesUntilPageBoundary = _pageSize - addr % _pageSize`. -/
def chunkCnt (addr len : Nat) : Nat :=
  min (min I2C_BUFFERSIZE len) (I2C_PAGESIZE_24LC1025 - addr % I2C_PAGESIZE_24LC1025)

/-- The list of write chunks issued by the `_pageBlock` loop, fuel-indexed.
Mirrors: `while (len > 0) { cnt…; _WriteBlock(addr, buffer, cnt);
addr += cnt; if (incrBuffer) buffer += cnt; len -= cnt; }`.
`addr` is a `uint32_t`, hence the `% U32`. -/
def pageBlockChunksF : Nat → Nat → Nat → Nat → Bool → List Chunk
  | 0, _, _, _, _ => []
  | fuel + 1, addr, off, len, incrBuffer =>
    if len = 0 then []
    else
      Chunk.mk addr off (chunkCnt addr len) ::
        pageBlockChunksF fuel ((addr + chunkCnt addr len) % U32)
          (if incrBuffer then off + chunkCnt addr len else off)
          (len - chunkCnt addr len) incrBuffer

/-- The write chunks of `_pageBlock(memoryAddress, buffer, length, incrBuffer)`;
`length` is the already-16-bit parameter. -/
def pageBlockChunks (memoryAddress off length : Nat) (incrBuffer : Bool) : List Chunk :=
  pageBlockChunksF length memoryAddress off length incrBuffer

/-- The write chunks of `writeBlock(memoryAddress, buffer, length)`:
`writeBlock` takes a `uint32_t` length and hands it to `_pageBlock`,
whose parameter is `uint16_t` — the length is implicitly truncated. -/
def writeBlockChunks (memoryAddress length : Nat) : List Chunk :=
  pageBlockChunks memoryAddress 0 (length % U16) true

/-- Effect of one chunk write on the memory image: bytes `off`, `off+1`, …
of the source buffer land at addresses `a`, `a+1`, …. -/
def writeChunk (mem : Nat → Nat) (a : Nat) (b : Nat → Nat) (off cnt : Nat) : Nat → Nat :=
  fun x => if a ≤ x ∧ x < a + cnt then b (off + (x - a)) else mem x

/-- Apply a list of chunk writes, in order, to a memory image. -/
def applyChunks (b : Nat → Nat) (mem : Nat → Nat) : List Chunk → (Nat → Nat)
  | [] => mem
  | c :: cs => applyChunks b (writeChunk mem c.addr b c.off c.cnt) cs

/-- The hypothetical unchunked write: `n` bytes of `b` placed at `a` in
one operation. -/
def directWrite (mem : Nat → Nat) (a : Nat) (b : Nat → Nat) (n : Nat) : Nat → Nat :=
  fun x => if a ≤ x ∧ x < a + n then b (x - a) else mem x

/-- Address and bank resolution performed by `_beginTransmission`:
`_actualAddress = _deviceAddress; if (memoryAddress >= 0x10000)
_actualAddress |= 0x04;` and `memAddr = memoryAddress & 0xFFFF`. -/
def resolveAddress (deviceAddress memoryAddress : Nat) : Nat × Nat :=
  (if 65536 ≤ memoryAddress then deviceAddress ||| 0x04 else deviceAddress,
   memoryAddress &&& 0xFFFF)

/-- Decidable per-chunk invariant: the chunk respects the buffer limit,
the distance to the next page boundary, the remaining byte budget, and
crosses neither a page boundary nor the 0x10000 bank boundary. -/
def chunkRespects (remaining : Nat) (c : Chunk) : Bool :=
  decide (c.cnt ≤ I2C_BUFFERSIZE) &&
  decide (c.cnt ≤ I2C_PAGESIZE_24LC1025 - c.addr % I2C_PAGESIZE_24LC1025) &&
  decide (c.cnt ≤ remaining) &&
  decide (c.addr / I2C_PAGESIZE_24LC1025 = (c.addr + c.cnt - 1) / I2C_PAGESIZE_24LC1025) &&
  decide (c.addr / BANKSIZE = (c.addr + c.cnt - 1) / BANKSIZE)

/-- All chunks of a list respect `chunkRespects`, threading the remaining
byte budget through the list. -/
def chunksOK (remaining : Nat) : List Chunk → Bool
  | [] => true
  | c :: cs => chunkRespects remaining c && chunksOK (remaining - c.cnt) cs

-- Basic facts about the chunk size.

theorem chunkCnt_pos (addr len : Nat) (h : 0 < len) : 0 < chunkCnt addr len := by
  have h1 : addr % I2C_PAGESIZE_24LC1025 < I2C_PAGESIZE_24LC1025 :=
    Nat.mod_lt _ (by decide)
  simp only [chunkCnt, I2C_BUFFERSIZE]
  omega

theorem chunkCnt_le_len (addr len : Nat) : chunkCnt addr len ≤ len := by
  simp only [chunkCnt]
  omega

theorem chunkCnt_le_buffer (addr len : Nat) : chunkCnt addr len ≤ I2C_BUFFERSIZE := by
  simp only [chunkCnt]
  omega

theorem chunkCnt_le_page (addr len : Nat) :
    chunkCnt addr len ≤ I2C_PAGESIZE_24LC1025 - addr % I2C_PAGESIZE_24LC1025 := by
  simp only [chunkCnt]
  omega

theorem pageBlockChunksF_zero (fuel addr off : Nat) (incr : Bool) :
    pageBlockChunksF fuel addr off 0 incr = [] := by
  cases fuel <;> simp [pageBlockChunksF]

/-- A chunk that stays within the page that contains its first byte stays
within one `I2C_PAGESIZE_24LC1025`-aligned page. -/
theorem page_no_cross (a c : Nat) (hc : 0 < c)
    (h : c ≤ I2C_PAGESIZE_24LC1025 - a % I2C_PAGESIZE_24LC1025) :
    a / I2C_PAGESIZE_24LC1025 = (a + c - 1) / I2C_PAGESIZE_24LC1025 := by
  simp only [I2C_PAGESIZE_24LC1025] at *
  omega

/-- Staying within one 128-byte page implies staying within one 0x10000
bank, because 128 divides 0x10000. -/
theorem bank_no_cross_of_page (a c : Nat)
    (h : a / I2C_PAGESIZE_24LC1025 = (a + c - 1) / I2C_PAGESIZE_24LC1025) :
    a / BANKSIZE = (a + c - 1) / BANKSIZE := by
  simp only [I2C_PAGESIZE_24LC1025, BANKSIZE] at *
  omega

theorem chunksOK_pageBlockF (fuel : Nat) :
    ∀ addr off len incr, len ≤ fuel →
      chunksOK len (pageBlockChunksF fuel addr off len incr) = true := by
  induction fuel with
  | zero =>
    intro addr off len incr hlen
    have : len = 0 := Nat.le_zero.mp hlen
    subst this
    simp [pageBlockChunksF, chunksOK]
  | succ fuel ih =>
    intro addr off len incr hlen
    by_cases h0 : len = 0
    · subst h0; simp [pageBlockChunksF, chunksOK]
    · have hpos : 0 < len := Nat.pos_of_ne_zero h0
      have hcpos : 0 < chunkCnt addr len := chunkCnt_pos addr len hpos
      have hcle : chunkCnt addr len ≤ len := chunkCnt_le_len addr len
      simp only [pageBlockChunksF, if_neg h0, chunksOK, Bool.and_eq_true]
      constructor
      · simp only [chunkRespects, Bool.and_eq_true, decide_eq_true_eq]
        refine ⟨⟨⟨⟨chunkCnt_le_buffer addr len, chunkCnt_le_page addr len⟩, hcle⟩, ?_⟩, ?_⟩
        · exact page_no_cross addr _ hcpos (chunkCnt_le_page addr len)
        · exact bank_no_cross_of_page addr _
            (page_no_cross addr _ hcpos (chunkCnt_le_page addr len))
      · exact ih _ _ _ incr (by omega)

/-- C2: every chunk emitted by `_pageBlock` has size at most
`min(I2C_BUFFERSIZE, pageSize - addr % pageSize, remaining bytes)`,
crosses no page boundary (`addr / pageSize = (addr+cnt-1) / pageSize`) and
crosses no 0x10000 bank boundary — stated as the decidable invariant
`chunksOK`, which checks exactly these five conditions for every chunk
while threading the remaining byte budget. -/
theorem pageBlock_chunk_invariant (memoryAddress off length : Nat) (incrBuffer : Bool) :
    chunksOK length (pageBlockChunks memoryAddress off length incrBuffer) = true :=
  chunksOK_pageBlockF length memoryAddress off length incrBuffer (Nat.le_refl _)

/-- C7: `_beginTransmission` resolves a logical address to the physical
bus-select address (base device address, with the bank-select bit 0x04
or-ed in exactly when the logical address is at or above 0x10000) and the
low 16 bits as the within-bank address; it is a total function defined for
every 32-bit input. -/
theorem beginTransmission_resolution (deviceAddress memoryAddress : Nat)
    (h : memoryAddress < U32) :
    resolveAddress deviceAddress memoryAddress =
      (if 65536 ≤ memoryAddress then deviceAddress ||| 0x04 else deviceAddress,
       memoryAddress % 65536) := by
  have h2 : memoryAddress &&& 0xFFFF = memoryAddress % 65536 := by
    have h3 := Nat.and_pow_two_sub_one_eq_mod memoryAddress 16
    norm_num at h3
    exact h3
  simp only [resolveAddress, h2]

/-- Witness for C7 at a concrete high address: 0x12345 resolves to the
bank-selected device address and native address 0x2345. -/
theorem beginTransmission_resolution_witness :
    0x12345 < U32 ∧
      resolveAddress 0x50 0x12345 =
        (if 65536 ≤ 0x12345 then 0x50 ||| 0x04 else 0x50, 0x12345 % 65536) :=
  ⟨by decide, beginTransmission_resolution 0x50 0x12345 (by decide)⟩

-- The write-path refinement: applying all chunks of `_pageBlock` (with
-- `incrBuffer = true`) equals one direct write, as long as the address
-- arithmetic does not wrap around 2^32.

theorem pageBlockChunksF_image (b : Nat → Nat) : ∀ fuel addr off len mem,
    len ≤ fuel → addr + len ≤ U32 →
    ∀ x, applyChunks b mem (pageBlockChunksF fuel addr off len true) x
      = if addr ≤ x ∧ x < addr + len then b (off + (x - addr)) else mem x := by
  intro fuel
  induction fuel with
  | zero =>
    intro addr off len mem hlen hw x
    have h0 : len = 0 := Nat.le_zero.mp hlen
    subst h0
    simp only [pageBlockChunksF, applyChunks]
    rw [if_neg (by omega)]
  | succ fuel ih =>
    intro addr off len mem hlen hw x
    by_cases h0 : len = 0
    · subst h0
      simp only [pageBlockChunksF, applyChunks, if_true]
      rw [if_neg (by omega)]
    · have hpos : 0 < len := Nat.pos_of_ne_zero h0
      have hcpos : 0 < chunkCnt addr len := chunkCnt_pos addr len hpos
      have hcle : chunkCnt addr len ≤ len := chunkCnt_le_len addr len
      simp only [pageBlockChunksF]
      rw [if_neg h0]
      simp only [applyChunks]
      by_cases hend : len - chunkCnt addr len = 0
      · have hceq : chunkCnt addr len = len := by omega
        rw [hend, pageBlockChunksF_zero]
        simp only [applyChunks, writeChunk, hceq]
      · have hlt : addr + chunkCnt addr len < U32 := by omega
        simp only [if_true]
        rw [Nat.mod_eq_of_lt hlt]
        rw [ih (addr + chunkCnt addr len) (off + chunkCnt addr len)
          (len - chunkCnt addr len) _ (by omega) (by omega) x]
        simp only [writeChunk]
        by_cases hx1 : addr + chunkCnt addr len ≤ x ∧ x < addr + chunkCnt addr len + (len - chunkCnt addr len)
        · rw [if_pos hx1, if_pos (by omega)]
          congr 1
          omega
        · rw [if_neg hx1]
          by_cases hx2 : addr ≤ x ∧ x < addr + chunkCnt addr len
          · rw [if_pos hx2, if_pos (by omega)]
          · rw [if_neg hx2, if_neg (by omega)]

/-- C1 (amended): for every 32-bit starting address `a` and length `n`
with `n < 2^16` (no truncation to `_pageBlock`'s `uint16_t` length
parameter) and `a + n ≤ 2^32` (no 32-bit wraparound of the address
cursor), the chunked write path of `writeBlock` produces exactly the
memory image of a single unchunked write of `n` bytes at `a`. -/
theorem writeBlock_image (a n : Nat) (b mem : Nat → Nat)
    (ha : a < U32) (hn : n < U16) (hw : a + n ≤ U32) :
    ∀ x, applyChunks b mem (writeBlockChunks a n) x = directWrite mem a b n x := by
  intro x
  have hmod : n % U16 = n := Nat.mod_eq_of_lt hn
  simp only [writeBlockChunks, pageBlockChunks, hmod, directWrite]
  have h4 := pageBlockChunksF_image b n a 0 n mem (Nat.le_refl _) hw x
  simpa using h4

/-- Witness for C1 on the spec's concrete scenario: writing 300 bytes at
0x0FFF0 (16 bytes before the bank boundary); the image at the sampled
points equals the direct write. -/
theorem writeBlock_image_witness :
    0x0FFF0 < U32 ∧ 300 < U16 ∧ 0x0FFF0 + 300 ≤ U32 ∧
      (∀ x, applyChunks (fun i => (i + 3) % 256) (fun _ => 0)
          (writeBlockChunks 0x0FFF0 300) x
        = directWrite (fun _ => 0) 0x0FFF0 (fun i => (i + 3) % 256) 300 x) :=
  ⟨by decide, by decide, by decide,
    writeBlock_image 0x0FFF0 300 (fun i => (i + 3) % 256) (fun _ => 0)
      (by decide) (by decide) (by decide)⟩

/-- Counterexample to C1 as stated: the claim quantifies over every length
`n`, but `writeBlock` hands its `uint32_t` length to `_pageBlock`, whose
parameter is `uint16_t`.  At `n = 65536` the length truncates to 0, so the
chunked path writes nothing, while the direct write would place byte 1 at
address 0.  Also, the claim quantifies over every starting address, but
the address cursor is a `uint32_t`: at `a = 2^32 - 16`, `n = 32`, the
second chunk wraps to address 0, which the direct write at `a` would not
touch. -/
theorem writeBlock_image_cex :
    (applyChunks (fun _ => 1) (fun _ => 0) (writeBlockChunks 0 65536) 0 = 0
      ∧ directWrite (fun _ => 0) 0 (fun _ => 1) 65536 0 = 1)
    ∧ (applyChunks (fun _ => 1) (fun _ => 0)
          (pageBlockChunks (U32 - 16) 0 32 true) 0 = 1
      ∧ directWrite (fun _ => 0) (U32 - 16) (fun _ => 1) 32 0 = 0) := by
  constructor
  · constructor <;> decide
  · constructor <;> decide

/-- Bookkeeping helper: account one more issued transaction in a
`(status, issued, mem)` triple. -/
def stepRun (r : Nat × Nat × (Nat → Nat)) : Nat × Nat × (Nat → Nat) :=
  (r.1, r.2.1 + 1, r.2.2)

/-- The `_pageBlock` loop with transaction outcomes.  `wst i` is the I2C
status reported by the i-th write transaction of this run (0 = OK).
Returns `(status, issued, mem')`: the value `_pageBlock` returns, the
number of `_WriteBlock` transactions issued, and the final memory image
(a transaction reporting a non-zero status is modelled as not committing
its bytes).  Mirrors: `int rv = _WriteBlock(addr, buffer, cnt);
if (rv != 0) return rv; addr += cnt; …` and the final `return 0`. -/
def pageBlockRunF : Nat → (Nat → Nat) → (Nat → Nat) → (Nat → Nat) → Nat → Nat → Nat → Bool → Nat × Nat × (Nat → Nat)
  | 0, _, _, mem, _, _, _, _ => (0, 0, mem)
  | fuel + 1, wst, b, mem, addr, off, len, incrBuffer =>
    if len = 0 then (0, 0, mem)
    else
      if wst 0 ≠ 0 then (wst 0, 1, mem)
      else
        stepRun (pageBlockRunF fuel (fun i => wst (i + 1)) b
          (writeChunk mem addr b off (chunkCnt addr len))
          ((addr + chunkCnt addr len) % U32)
          (if incrBuffer then off + chunkCnt addr len else off)
          (len - chunkCnt addr len) incrBuffer)

/-- The run of `_pageBlock(memoryAddress, buffer, length, incrBuffer)`. -/
def pageBlockRun (wst b mem : Nat → Nat) (memoryAddress off length : Nat) (incrBuffer : Bool) : Nat × Nat × (Nat → Nat) :=
  pageBlockRunF length wst b mem memoryAddress off length incrBuffer

theorem pageBlockRunF_spec (fuel : Nat) :
    ∀ wst b mem addr off len incr, len ≤ fuel →
    (((pageBlockRunF fuel wst b mem addr off len incr).1 = 0)
        ↔ (∀ i < (pageBlockChunksF fuel addr off len incr).length, wst i = 0))
    ∧ (∀ j, j < (pageBlockChunksF fuel addr off len incr).length → wst j ≠ 0 →
        (∀ i < j, wst i = 0) →
        (pageBlockRunF fuel wst b mem addr off len incr).1 = wst j
        ∧ (pageBlockRunF fuel wst b mem addr off len incr).2.1 = j + 1
        ∧ (pageBlockRunF fuel wst b mem addr off len incr).2.2
            = applyChunks b mem ((pageBlockChunksF fuel addr off len incr).take j))
    ∧ ((∀ i < (pageBlockChunksF fuel addr off len incr).length, wst i = 0) →
        (pageBlockRunF fuel wst b mem addr off len incr).2.1
            = (pageBlockChunksF fuel addr off len incr).length
        ∧ (pageBlockRunF fuel wst b mem addr off len incr).2.2
            = applyChunks b mem (pageBlockChunksF fuel addr off len incr)) := by
  induction fuel with
  | zero =>
    intro wst b mem addr off len incr hlen
    have h0 : len = 0 := Nat.le_zero.mp hlen
    subst h0
    simp [pageBlockRunF, pageBlockChunksF, applyChunks]
  | succ fuel ih =>
    intro wst b mem addr off len incr hlen
    by_cases h0 : len = 0
    · subst h0
      simp [pageBlockRunF, pageBlockChunksF, applyChunks]
    · have hcle : chunkCnt addr len ≤ len := chunkCnt_le_len addr len
      have hcpos : 0 < chunkCnt addr len := chunkCnt_pos addr len (Nat.pos_of_ne_zero h0)
      simp only [pageBlockRunF, pageBlockChunksF, if_neg h0]
      by_cases hw : wst 0 = 0
      · rw [if_neg (not_not_intro hw)]
        obtain ⟨IH1, IH2, IH3⟩ := ih (fun i => wst (i + 1)) b
          (writeChunk mem addr b off (chunkCnt addr len))
          ((addr + chunkCnt addr len) % U32)
          (if incr then off + chunkCnt addr len else off)
          (len - chunkCnt addr len) incr (by omega)
        refine ⟨?_, ?_, ?_⟩
        · simp only [stepRun, List.length_cons]
          constructor
          · intro h i hi
            match i with
            | 0 => exact hw
            | k + 1 => exact IH1.mp h k (by omega)
          · intro h
            exact IH1.mpr (fun k hk => h (k + 1) (by omega))
        · intro j hj hwj hprev
          match j with
          | 0 => exact absurd hw hwj
          | k + 1 =>
            simp only [List.length_cons] at hj
            obtain ⟨e1, e2, e3⟩ := IH2 k (by omega) hwj
              (fun i hi => hprev (i + 1) (by omega))
            refine ⟨e1, ?_, ?_⟩
            · simp only [stepRun]
              omega
            · simp only [stepRun, List.take_succ_cons, applyChunks]
              exact e3
        · intro hall
          simp only [List.length_cons] at hall
          obtain ⟨e2, e3⟩ := IH3 (fun k hk => hall (k + 1) (by omega))
          refine ⟨?_, ?_⟩
          · simp only [stepRun, List.length_cons]
            omega
          · simp only [stepRun, applyChunks]
            exact e3
      · rw [if_pos hw]
        refine ⟨?_, ?_, ?_⟩
        · constructor
          · intro h
            exact absurd h hw
          · intro h
            exact absurd (h 0 (by simp)) hw
        · intro j hj hwj hprev
          match j with
          | 0 =>
            refine ⟨rfl, rfl, ?_⟩
            simp [applyChunks]
          | k + 1 => exact absurd (hprev 0 (by omega)) hw
        · intro hall
          exact absurd (hall 0 (by simp)) hw

/-- C3: the chunked write loop of `_pageBlock` returns 0 if and only if
every issued chunk transaction reported status 0; at the first chunk with
a non-zero status it returns that status having issued exactly that many
transactions and no further ones, leaving the earlier (successful) chunks
written with no rollback; and when all transactions succeed it issues
exactly one transaction per chunk and the image is the full chunked
write. -/
theorem pageBlock_status (wst b mem : Nat → Nat) (a off len : Nat) (incr : Bool) :
    (((pageBlockRun wst b mem a off len incr).1 = 0)
        ↔ (∀ i < (pageBlockChunks a off len incr).length, wst i = 0))
    ∧ (∀ j, j < (pageBlockChunks a off len incr).length → wst j ≠ 0 →
        (∀ i < j, wst i = 0) →
        (pageBlockRun wst b mem a off len incr).1 = wst j
        ∧ (pageBlockRun wst b mem a off len incr).2.1 = j + 1
        ∧ (pageBlockRun wst b mem a off len incr).2.2
            = applyChunks b mem ((pageBlockChunks a off len incr).take j))
    ∧ ((∀ i < (pageBlockChunks a off len incr).length, wst i = 0) →
        (pageBlockRun wst b mem a off len incr).2.1 = (pageBlockChunks a off len incr).length
        ∧ (pageBlockRun wst b mem a off len incr).2.2
            = applyChunks b mem (pageBlockChunks a off len incr)) :=
  pageBlockRunF_spec len wst b mem a off len incr (Nat.le_refl _)

/-- Witness for C3: a 100-byte write whose second transaction fails with
status 7 returns 7, issues exactly two of the four chunk transactions,
and leaves exactly the first chunk written. -/
theorem pageBlock_status_witness :
    (1 < (pageBlockChunks 0 0 100 true).length
      ∧ (fun i => if i = 1 then 7 else 0) 1 ≠ 0
      ∧ (∀ i < 1, (fun i : Nat => if i = 1 then 7 else 0) i = 0))
    ∧ ((pageBlockRun (fun i => if i = 1 then 7 else 0) (fun _ => 5) (fun _ => 0) 0 0 100 true).1 = 7
      ∧ (pageBlockRun (fun i => if i = 1 then 7 else 0) (fun _ => 5) (fun _ => 0) 0 0 100 true).2.1 = 2
      ∧ (pageBlockRun (fun i => if i = 1 then 7 else 0) (fun _ => 5) (fun _ => 0) 0 0 100 true).2.2
          = applyChunks (fun _ => 5) (fun _ => 0) ((pageBlockChunks 0 0 100 true).take 1)) :=
  ⟨⟨by decide, by decide, by decide⟩,
    (pageBlock_status (fun i => if i = 1 then 7 else 0) (fun _ => 5) (fun _ => 0) 0 0 100 true).2.1
      1 (by decide) (by decide) (by decide)⟩

/-- The chunks of the `while` loop of `readBlock`:
`uint8_t cnt = I2C_BUFFERSIZE; if (cnt > len) cnt = len;
_ReadBlock(addr, buffer, cnt); addr += cnt; buffer += cnt; len -= cnt;`. -/
def readChunksF : Nat → Nat → Nat → List (Nat × Nat)
  | 0, _, _ => []
  | fuel + 1, addr, len =>
    if len = 0 then []
    else
      (addr, min I2C_BUFFERSIZE len) ::
        readChunksF fuel ((addr + min I2C_BUFFERSIZE len) % U32)
          (len - min I2C_BUFFERSIZE len)

/-- The read transactions of one `readBlock` loop over `[addr, addr+len)`. -/
def readLoopChunks (addr len : Nat) : List (Nat × Nat) :=
  readChunksF len addr len

/-- The sub-read intervals of `readBlock`, i.e. the (addr, len) arguments
on which its `while` loop eventually runs.  Mirrors the split
`if ((addr < 0x10000) && ((addr + len) > 0x10000)) { sublen = 0x10000 - addr;
readBlock(addr, buffer, sublen); readBlock(0x10000, &buffer[sublen], len - sublen); }`
with `uint32_t` arithmetic; recursion depth 2 suffices because neither
recursive call can satisfy the split condition again. -/
def readSubreadsF : Nat → Nat → Nat → List (Nat × Nat)
  | 0, _, _ => []
  | fuel + 1, addr, len =>
    if addr < 65536 ∧ 65536 < (addr + len) % U32 then
      readSubreadsF fuel addr (65536 - addr)
        ++ readSubreadsF fuel 65536 ((len + U32 - (65536 - addr)) % U32)
    else [(addr, len)]

/-- The sub-reads of `readBlock(memoryAddress, buffer, length)`. -/
def readBlockSubreads (memoryAddress length : Nat) : List (Nat × Nat) :=
  readSubreadsF 2 memoryAddress length

/-- All low-level read transactions of `readBlock(memoryAddress, buffer,
length)`: the loop chunks of each sub-read, in order. -/
def readBlockChunks (memoryAddress length : Nat) : List (Nat × Nat) :=
  ((readBlockSubreads memoryAddress length).map
    (fun p => readLoopChunks p.1 p.2)).flatten

theorem readChunksF_zero (fuel addr : Nat) : readChunksF fuel addr 0 = [] := by
  cases fuel <;> simp [readChunksF]

/-- Every chunk of the `readBlock` loop lies inside the requested
interval (no 32-bit wraparound assumed). -/
theorem readChunksF_bounds (fuel : Nat) : ∀ addr len, len ≤ fuel → addr + len ≤ U32 →
    ∀ p ∈ readChunksF fuel addr len, addr ≤ p.1 ∧ p.1 + p.2 ≤ addr + len ∧ 0 < p.2 := by
  induction fuel with
  | zero =>
    intro addr len hlen hw p hp
    have h0 : len = 0 := Nat.le_zero.mp hlen
    subst h0
    simp [readChunksF] at hp
  | succ fuel ih =>
    intro addr len hlen hw p hp
    by_cases h0 : len = 0
    · subst h0
      simp [readChunksF] at hp
    · have hcnt : 0 < min I2C_BUFFERSIZE len := by
        simp only [I2C_BUFFERSIZE]
        omega
      have hcle : min I2C_BUFFERSIZE len ≤ len := Nat.min_le_right _ _
      simp only [readChunksF, if_neg h0, List.mem_cons] at hp
      rcases hp with hp | hp
      · subst hp
        exact ⟨Nat.le_refl _, by omega, hcnt⟩
      · by_cases hend : len - min I2C_BUFFERSIZE len = 0
        · rw [hend, readChunksF_zero] at hp
          simp at hp
        · have hlt : addr + min I2C_BUFFERSIZE len < U32 := by omega
          rw [Nat.mod_eq_of_lt hlt] at hp
          have hb := ih (addr + min I2C_BUFFERSIZE len) (len - min I2C_BUFFERSIZE len)
            (by omega) (by omega) p hp
          exact ⟨by omega, by omega, hb.2.2⟩

/-- C4 (amended): for every read request with `addr + len < 2^32` (no
32-bit overflow in the source's `addr + len` comparison), a request
spanning the 0x10000 bank boundary is split into exactly the two
sub-reads `[addr, 0x10000)` and `[0x10000, addr+len)`; a request entirely
on one side is not split; and no single low-level read transaction
straddles the bank boundary. -/
theorem readBlock_bank_split (a len : Nat) (ha : a < U32) (hl : len < U32)
    (hno : a + len < U32) :
    (a < 65536 → 65536 < a + len →
      readBlockSubreads a len = [(a, 65536 - a), (65536, a + len - 65536)])
    ∧ (¬(a < 65536 ∧ 65536 < a + len) → readBlockSubreads a len = [(a, len)])
    ∧ (∀ p ∈ readBlockChunks a len, ¬(p.1 < 65536 ∧ 65536 < p.1 + p.2)) := by
  have hmod : (a + len) % U32 = a + len := Nat.mod_eq_of_lt hno
  have h65 : (65536 : Nat) % U32 = 65536 := by decide
  have hA : a < 65536 → 65536 < a + len →
      readBlockSubreads a len = [(a, 65536 - a), (65536, a + len - 65536)] := by
    intro h1 h2
    have hc : a < 65536 ∧ 65536 < (a + len) % U32 := ⟨h1, by rw [hmod]; exact h2⟩
    have hs1 : a + (65536 - a) = 65536 := by omega
    simp only [readBlockSubreads, readSubreadsF]
    rw [if_pos hc]
    have hc1 : ¬(a < 65536 ∧ 65536 < (a + (65536 - a)) % U32) := by
      intro hcc
      rw [hs1, h65] at hcc
      exact lt_irrefl _ hcc.2
    have hc2 : ¬((65536 : Nat) < 65536 ∧
        65536 < ((65536 : Nat) + (len + U32 - (65536 - a)) % U32) % U32) := by
      intro hcc
      exact lt_irrefl _ hcc.1
    rw [if_neg hc1, if_neg hc2]
    have harith : (len + U32 - (65536 - a)) % U32 = a + len - 65536 := by
      have e1 : len + U32 - (65536 - a) = U32 + (a + len - 65536) := by omega
      rw [e1, Nat.add_mod_left]
      exact Nat.mod_eq_of_lt (by omega)
    rw [harith]
    rfl
  have hB : ¬(a < 65536 ∧ 65536 < a + len) → readBlockSubreads a len = [(a, len)] := by
    intro hnc
    simp only [readBlockSubreads, readSubreadsF]
    rw [if_neg (by rw [hmod]; exact hnc)]
  refine ⟨hA, hB, ?_⟩
  intro p hp
  by_cases hsplit : a < 65536 ∧ 65536 < a + len
  · simp only [readBlockChunks, hA hsplit.1 hsplit.2, List.map_cons, List.map_nil,
      List.flatten_cons, List.flatten_nil, List.append_nil, List.mem_append] at hp
    rcases hp with hp | hp
    · have hb := readChunksF_bounds (65536 - a) a (65536 - a) (Nat.le_refl _)
        (by omega) p hp
      intro hcc
      omega
    · have hb := readChunksF_bounds (a + len - 65536) 65536 (a + len - 65536)
        (Nat.le_refl _) (by omega) p hp
      intro hcc
      omega
  · simp only [readBlockChunks, hB hsplit, List.map_cons, List.map_nil,
      List.flatten_cons, List.flatten_nil, List.append_nil] at hp
    have hb := readChunksF_bounds len a len (Nat.le_refl _) (by omega) p hp
    intro hcc
    omega

/-- Witness for C4: reading 0x20 bytes at 0xFFF0 spans the bank boundary
and is split into exactly the sub-reads `[0xFFF0, 0x10000)` and
`[0x10000, 0x10010)`. -/
theorem readBlock_bank_split_witness :
    0xFFF0 < U32 ∧ 0x20 < U32 ∧ 0xFFF0 + 0x20 < U32 ∧ 0xFFF0 < 65536
      ∧ 65536 < 0xFFF0 + 0x20
      ∧ readBlockSubreads 0xFFF0 0x20
          = [(0xFFF0, 65536 - 0xFFF0), (65536, 0xFFF0 + 0x20 - 65536)] :=
  ⟨by decide, by decide, by decide, by decide, by decide,
    (readBlock_bank_split 0xFFF0 0x20 (by decide) (by decide) (by decide)).1
      (by decide) (by decide)⟩

/-- Counterexample to C4 as stated: the claim quantifies over every
request with `addr < 0x10000 < addr + len`, but the source computes
`addr + len` in `uint32_t`.  At `addr = 0xFFFF`, `len = 2^32 - 0xFFFF`
the request spans the boundary (`addr + len = 2^32 > 0x10000`), yet the
wrapped comparison `(addr + len) % 2^32 = 0 > 0x10000` fails, so
`readBlock` performs a single boundary-straddling sub-read instead of
splitting into two. -/
theorem readBlock_bank_split_cex :
    (0xFFFF < 65536 ∧ 65536 < 0xFFFF + (U32 - 0xFFFF))
    ∧ readBlockSubreads 0xFFFF (U32 - 0xFFFF) = [(0xFFFF, U32 - 0xFFFF)] := by
  constructor
  · constructor <;> decide
  · decide

/-- Wrap-around `uint32_t` subtraction, as in `micros() - _lastWrite`. -/
def u32sub (a b : Nat) : Nat :=
  (a % U32 + (U32 - b % U32)) % U32

/-- How the `_waitEEReady` polling loop exits: the deadline check failed
before a probe, a probe was acknowledged, or the model ran out of fuel. -/
inductive WaitExit where
  | deadline : WaitExit
  | acked : WaitExit
  | fuelOut : WaitExit
deriving DecidableEq

/-- The polling loop of `_waitEEReady`:
`while ((micros() - _lastWrite) <= waitTime) { _wire->beginTransmission(…);
int x = _wire->endTransmission(); if (x == 0) return; yield(); }`.
`clock j` is the value of `micros()` at the j-th loop-condition check and
`ack j` tells whether the j-th probe is acknowledged
(`endTransmission() == 0`).  Returns the number of probes issued and the
exit kind. -/
def waitLoopF : Nat → (Nat → Nat) → (Nat → Bool) → Nat → Nat → Nat → Nat × WaitExit
  | 0, _, _, _, _, _ => (0, WaitExit.fuelOut)
  | fuel + 1, clock, ack, lastWrite, waitTime, k =>
    if u32sub (clock k) lastWrite ≤ waitTime then
      if ack k then (1, WaitExit.acked)
      else
        ((waitLoopF fuel clock ack lastWrite waitTime (k + 1)).1 + 1,
         (waitLoopF fuel clock ack lastWrite waitTime (k + 1)).2)
    else (0, WaitExit.deadline)

/-- Model of `_waitEEReady()` with
`uint32_t waitTime = I2C_WRITEDELAY + _extraTWR * 1000UL`. -/
def waitEEReady (clock : Nat → Nat) (ack : Nat → Bool) (lastWrite extraTWR fuel : Nat) : Nat × WaitExit :=
  waitLoopF fuel clock ack lastWrite (I2C_WRITEDELAY + extraTWR * 1000) 0

theorem waitLoopF_probes (fuel : Nat) : ∀ clock ack lw wt k,
    (∀ i, i < (waitLoopF fuel clock ack lw wt k).1 → u32sub (clock (k + i)) lw ≤ wt)
    ∧ ((waitLoopF fuel clock ack lw wt k).2 = WaitExit.acked →
        0 < (waitLoopF fuel clock ack lw wt k).1
        ∧ ack (k + ((waitLoopF fuel clock ack lw wt k).1 - 1)) = true
        ∧ ∀ i, i + 1 < (waitLoopF fuel clock ack lw wt k).1 → ack (k + i) = false) := by
  induction fuel with
  | zero =>
    intro clock ack lw wt k
    refine ⟨?_, ?_⟩
    · intro i hi
      simp [waitLoopF] at hi
    · intro h
      simp [waitLoopF] at h
  | succ fuel ih =>
    intro clock ack lw wt k
    by_cases hdl : u32sub (clock k) lw ≤ wt
    · by_cases hak : ack k = true
      · simp only [waitLoopF, if_pos hdl, if_pos hak]
        refine ⟨?_, ?_⟩
        · intro i hi
          have h0 : i = 0 := by omega
          subst h0
          rw [Nat.add_zero]
          exact hdl
        · intro _
          refine ⟨by omega, ?_, ?_⟩
          · rw [Nat.add_zero]
            exact hak
          · intro i hi
            omega
      · have hakf : ack k = false := by
          revert hak
          cases ack k <;> simp
        obtain ⟨IH1, IH2⟩ := ih clock ack lw wt (k + 1)
        simp only [waitLoopF, if_pos hdl, if_neg hak]
        refine ⟨?_, ?_⟩
        · intro i hi
          match i with
          | 0 =>
            rw [Nat.add_zero]
            exact hdl
          | j + 1 =>
            have hidx : k + (j + 1) = (k + 1) + j := by omega
            rw [hidx]
            exact IH1 j (by omega)
        · intro he
          obtain ⟨hn, hlast, hprev⟩ := IH2 he
          refine ⟨by omega, ?_, ?_⟩
          · have hidx : k + ((waitLoopF fuel clock ack lw wt (k + 1)).1 + 1 - 1)
                = (k + 1) + ((waitLoopF fuel clock ack lw wt (k + 1)).1 - 1) := by
              omega
            rw [hidx]
            exact hlast
          · intro i hi
            match i with
            | 0 =>
              rw [Nat.add_zero]
              exact hakf
            | j + 1 =>
              have hidx : k + (j + 1) = (k + 1) + j := by omega
              rw [hidx]
              exact hprev j (by omega)
    · simp only [waitLoopF, if_neg hdl]
      refine ⟨?_, ?_⟩
      · intro i hi
        simp at hi
      · intro h
        simp at h

/-- C8: the ready-wait gate never polls past its deadline — every issued
probe happens while `(micros() - lastWrite) <= I2C_WRITEDELAY +
extraTWR*1000`; if the device acknowledges the first probe before the
deadline, exactly one probe is issued and the loop exits acknowledged; if
the deadline has already elapsed on entry, zero probes are issued and the
loop exits via the deadline; and an acknowledged exit happens at the
first acknowledged probe (all earlier probes were not acknowledged). -/
theorem waitEEReady_spec (clock : Nat → Nat) (ack : Nat → Bool)
    (lastWrite extraTWR fuel : Nat) :
    (∀ i, i < (waitEEReady clock ack lastWrite extraTWR fuel).1 →
        u32sub (clock i) lastWrite ≤ I2C_WRITEDELAY + extraTWR * 1000)
    ∧ (u32sub (clock 0) lastWrite ≤ I2C_WRITEDELAY + extraTWR * 1000 →
        ack 0 = true → 0 < fuel →
        waitEEReady clock ack lastWrite extraTWR fuel = (1, WaitExit.acked))
    ∧ (I2C_WRITEDELAY + extraTWR * 1000 < u32sub (clock 0) lastWrite → 0 < fuel →
        waitEEReady clock ack lastWrite extraTWR fuel = (0, WaitExit.deadline))
    ∧ ((waitEEReady clock ack lastWrite extraTWR fuel).2 = WaitExit.acked →
        ack ((waitEEReady clock ack lastWrite extraTWR fuel).1 - 1) = true
        ∧ ∀ i, i + 1 < (waitEEReady clock ack lastWrite extraTWR fuel).1 →
            ack i = false) := by
  obtain ⟨H1, H2⟩ := waitLoopF_probes fuel clock ack lastWrite
    (I2C_WRITEDELAY + extraTWR * 1000) 0
  refine ⟨?_, ?_, ?_, ?_⟩
  · intro i hi
    have := H1 i hi
    rwa [Nat.zero_add] at this
  · intro hdl hak hfuel
    match fuel, hfuel with
    | f + 1, _ =>
      simp only [waitEEReady, waitLoopF, if_pos hdl, if_pos hak]
  · intro hdl hfuel
    match fuel, hfuel with
    | f + 1, _ =>
      simp only [waitEEReady, waitLoopF, if_neg (Nat.not_le.mpr hdl)]
  · intro he
    obtain ⟨hn, hlast, hprev⟩ := H2 he
    refine ⟨?_, ?_⟩
    · rwa [Nat.zero_add] at hlast
    · intro i hi
      have := hprev i hi
      rwa [Nat.zero_add] at this

/-- Witness for C8: with the device acknowledging immediately and the
clock just after the last write, exactly one probe is issued. -/
theorem waitEEReady_spec_witness :
    u32sub 10 0 ≤ I2C_WRITEDELAY + 0 * 1000 ∧ (fun _ : Nat => true) 0 = true
      ∧ 0 < 3
      ∧ waitEEReady (fun _ => 10) (fun _ => true) 0 0 3 = (1, WaitExit.acked) :=
  ⟨by decide, rfl, by decide,
    (waitEEReady_spec (fun _ => 10) (fun _ => true) 0 0 3).2.1
      (by decide) rfl (by decide)⟩

/-- Model of `_ReadBlock` copying the `r` bytes the bus delivered into the caller's
buffer at offset `dstOff` (`while (cnt < readBytes) buffer[cnt++] = _wire->read();`);
bytes beyond `r` are left untouched. -/
def fillBuf (dst : Nat → Nat) (dstOff r : Nat) (mem : Nat → Nat) (addr : Nat) : Nat → Nat :=
  fun j => if dstOff ≤ j ∧ j < dstOff + r then mem ((addr + (j - dstOff)) % U32) else dst j

/-- Accumulate one chunk's byte count: `rv += _ReadBlock(…)`. -/
def addRead (r : Nat) (t : Nat × (Nat → Nat) × Nat) : Nat × (Nat → Nat) × Nat :=
  (r + t.1, t.2.1, t.2.2)

/-- The `readBlock` while loop with read outcomes.  `readRes k` is the
byte count the bus delivers for the k-th `_ReadBlock` transaction of the
run: 0 when addressing fails (`endTransmission() != 0`), otherwise the
`requestFrom` result, never more than requested — so the delivered count
of a chunk of size `cnt` is `min (readRes k) cnt`.  Returns
(bytes read, caller buffer, next read-transaction index). -/
def readLoopRunF : Nat → (Nat → Nat) → Nat → (Nat → Nat) → Nat → (Nat → Nat) → Nat → Nat → Nat × (Nat → Nat) × Nat
  | 0, _, rk, _, _, dst, _, _ => (0, dst, rk)
  | fuel + 1, readRes, rk, mem, addr, dst, dstOff, len =>
    if len = 0 then (0, dst, rk)
    else
      addRead (min (readRes rk) (min I2C_BUFFERSIZE len))
        (readLoopRunF fuel readRes (rk + 1) mem
          ((addr + min I2C_BUFFERSIZE len) % U32)
          (fillBuf dst dstOff (min (readRes rk) (min I2C_BUFFERSIZE len)) mem addr)
          (dstOff + min I2C_BUFFERSIZE len)
          (len - min I2C_BUFFERSIZE len))

/-- One `readBlock` loop over `[addr, addr+len)` writing the caller's
buffer from `dstOff`. -/
def readLoopRun (readRes : Nat → Nat) (rk : Nat) (mem : Nat → Nat) (addr : Nat) (dst : Nat → Nat) (dstOff len : Nat) : Nat × (Nat → Nat) × Nat :=
  readLoopRunF len readRes rk mem addr dst dstOff len

/-- The full `readBlock(memoryAddress, buffer, length)` run: the
bank-boundary split (with `uint32_t` arithmetic) followed by the loop on
each part.  Returns (bytes read, caller buffer, next read index). -/
def readBlockRun (readRes : Nat → Nat) (rk : Nat) (mem : Nat → Nat) (memoryAddress : Nat) (dst : Nat → Nat) (length : Nat) : Nat × (Nat → Nat) × Nat :=
  if memoryAddress < 65536 ∧ 65536 < (memoryAddress + length) % U32 then
    let r1 := readLoopRun readRes rk mem memoryAddress dst 0 (65536 - memoryAddress)
    let r2 := readLoopRun readRes r1.2.2 mem 65536 r1.2.1 (65536 - memoryAddress)
      ((length + U32 - (65536 - memoryAddress)) % U32)
    (r1.1 + r2.1, r2.2.1, r2.2.2)
  else readLoopRun readRes rk mem memoryAddress dst 0 length

/-- The temporary stack buffer `uint8_t buf[I2C_BUFFERSIZE]` inside
`updateBlock` after `_ReadBlock(addr, buf, cnt)`: the first `r` delivered
bytes come from memory, the rest is the uninitialised stack content
`junkBytes`. -/
def readChunkBuf (mem : Nat → Nat) (junkBytes : Nat → Nat) (addr r : Nat) : Nat → Nat :=
  fun i => if i < r then mem ((addr + i) % U32) else junkBytes i

/-- The comparison `memcmp(buffer, buf, cnt) == 0`: the next `cnt` bytes of the source
buffer (from `off`) equal the scratch buffer. -/
def chunkSame (b : Nat → Nat) (buf : Nat → Nat) (off cnt : Nat) : Bool :=
  (List.range cnt).all (fun i => b (off + i) == buf i)

/-- State of an `updateBlock` run: current memory image, accumulated
return value (`rv`, the sum of `_ReadBlock` results), number of read
transactions issued, number of write transactions issued. -/
structure UpdSt where
  mem : Nat → Nat
  rv : Nat
  rk : Nat
  wk : Nat

/-- One iteration of the `updateBlock` loop on the chunk
`(addr, off, cnt)`:
`rv += _ReadBlock(addr, buf, cnt); if (memcmp(buffer, buf, cnt) != 0)
{ _pageBlock(addr, buffer, cnt, true); }` — note the `_pageBlock` status
is discarded. -/
def updStep (wst readRes : Nat → Nat) (junk : Nat → Nat → Nat) (b : Nat → Nat) (s : UpdSt) (addr off cnt : Nat) : UpdSt :=
  if chunkSame b (readChunkBuf s.mem (junk s.rk) addr (min (readRes s.rk) cnt)) off cnt then
    UpdSt.mk s.mem (s.rv + min (readRes s.rk) cnt) (s.rk + 1) s.wk
  else
    UpdSt.mk (pageBlockRun (fun i => wst (s.wk + i)) b s.mem addr off cnt true).2.2
      (s.rv + min (readRes s.rk) cnt) (s.rk + 1)
      (s.wk + (pageBlockRun (fun i => wst (s.wk + i)) b s.mem addr off cnt true).2.1)

/-- The `updateBlock` while loop, fuel-indexed: chunk size
`min I2C_BUFFERSIZE len`, then advance `addr`, `buffer`, `len`. -/
def updateBlockF : Nat → (Nat → Nat) → (Nat → Nat) → (Nat → Nat → Nat) → (Nat → Nat) → UpdSt → Nat → Nat → Nat → UpdSt
  | 0, _, _, _, _, s, _, _, _ => s
  | fuel + 1, wst, readRes, junk, b, s, addr, off, len =>
    if len = 0 then s
    else
      updateBlockF fuel wst readRes junk b
        (updStep wst readRes junk b s addr off (min I2C_BUFFERSIZE len))
        ((addr + min I2C_BUFFERSIZE len) % U32)
        (off + min I2C_BUFFERSIZE len)
        (len - min I2C_BUFFERSIZE len)

/-- The run of `updateBlock(memoryAddress, buffer, length)`. -/
def updateBlockRun (wst readRes : Nat → Nat) (junk : Nat → Nat → Nat) (b mem : Nat → Nat) (memoryAddress length : Nat) : UpdSt :=
  updateBlockF length wst readRes junk b (UpdSt.mk mem 0 0 0) memoryAddress 0 length

/-- Model of `updateBlockVerify(memoryAddress, buffer, length)`:
`if (updateBlock(…) != length) return false;` then read back `length`
bytes and `memcmp`.  `d0` is the uninitialised content of the stack array
`uint8_t data[length]`. -/
def updateBlockVerifyRun (wst readRes : Nat → Nat) (junk : Nat → Nat → Nat) (b mem : Nat → Nat) (memoryAddress length : Nat) (d0 : Nat → Nat) : Bool :=
  if (updateBlockRun wst readRes junk b mem memoryAddress length).rv ≠ length then false
  else
    if (readBlockRun readRes (updateBlockRun wst readRes junk b mem memoryAddress length).rk
          (updateBlockRun wst readRes junk b mem memoryAddress length).mem
          memoryAddress d0 length).1 ≠ length then false
    else
      (List.range length).all (fun i =>
        (readBlockRun readRes (updateBlockRun wst readRes junk b mem memoryAddress length).rk
          (updateBlockRun wst readRes junk b mem memoryAddress length).mem
          memoryAddress d0 length).2.1 i == b i)

/-- Second half of `writeBlockVerify`, given the `(status, issued, mem)`
triple `w` of the initial `writeBlock`: a failed write returns false, a
short read-back returns false, otherwise `memcmp(data, buffer, length) == 0`.
Returns (verify result, final memory, write transactions issued). -/
def writeBlockVerifyAux (readRes : Nat → Nat) (b : Nat → Nat) (memoryAddress length : Nat) (d0 : Nat → Nat) (w : Nat × Nat × (Nat → Nat)) : Bool × (Nat → Nat) × Nat :=
  if w.1 ≠ 0 then (false, w.2.2, w.2.1)
  else
    if (readBlockRun readRes 0 w.2.2 memoryAddress d0 length).1 ≠ length then
      (false, w.2.2, w.2.1)
    else
      ((List.range length).all (fun i =>
          (readBlockRun readRes 0 w.2.2 memoryAddress d0 length).2.1 i == b i),
        w.2.2, w.2.1)

/-- The run of `writeBlockVerify(memoryAddress, buffer, length)`:
`if (writeBlock(…) != 0) return false; uint8_t data[length];
if (readBlock(…) != length) return false;
return memcmp(data, buffer, length) == 0;`. -/
def writeBlockVerifyRun (wst readRes : Nat → Nat) (b mem : Nat → Nat) (memoryAddress length : Nat) (d0 : Nat → Nat) : Bool × (Nat → Nat) × Nat :=
  writeBlockVerifyAux readRes b memoryAddress length d0
    (pageBlockRun wst b mem memoryAddress 0 (length % U16) true)

/-- When every bus read delivers a full buffer, the `readBlock` loop
reads exactly `len` bytes and fills the caller's buffer from memory. -/
theorem readLoopRunF_spec (fuel : Nat) : ∀ readRes rk mem addr dst dstOff len,
    len ≤ fuel → (∀ k, I2C_BUFFERSIZE ≤ readRes k) →
    (readLoopRunF fuel readRes rk mem addr dst dstOff len).1 = len
    ∧ ∀ j, (readLoopRunF fuel readRes rk mem addr dst dstOff len).2.1 j
        = if dstOff ≤ j ∧ j < dstOff + len then mem ((addr + (j - dstOff)) % U32)
          else dst j := by
  induction fuel with
  | zero =>
    intro readRes rk mem addr dst dstOff len hlen hr
    have h0 : len = 0 := Nat.le_zero.mp hlen
    subst h0
    refine ⟨rfl, ?_⟩
    intro j
    rw [if_neg (by omega)]
    rfl
  | succ fuel ih =>
    intro readRes rk mem addr dst dstOff len hlen hr
    by_cases h0 : len = 0
    · subst h0
      refine ⟨rfl, ?_⟩
      intro j
      rw [if_neg (by omega)]
      rfl
    · have hcle : min I2C_BUFFERSIZE len ≤ len := Nat.min_le_right _ _
      have hcpos : 0 < min I2C_BUFFERSIZE len := by
        simp only [I2C_BUFFERSIZE]
        omega
      have hfull : min (readRes rk) (min I2C_BUFFERSIZE len) = min I2C_BUFFERSIZE len := by
        have := hr rk
        omega
      obtain ⟨IHc, IHd⟩ := ih readRes (rk + 1) mem
        ((addr + min I2C_BUFFERSIZE len) % U32)
        (fillBuf dst dstOff (min (readRes rk) (min I2C_BUFFERSIZE len)) mem addr)
        (dstOff + min I2C_BUFFERSIZE len)
        (len - min I2C_BUFFERSIZE len) (by omega) hr
      simp only [readLoopRunF, if_neg h0, addRead]
      refine ⟨?_, ?_⟩
      · rw [IHc, hfull]
        omega
      · intro j
        rw [IHd j]
        simp only [fillBuf, hfull]
        by_cases hx1 : dstOff + min I2C_BUFFERSIZE len ≤ j
            ∧ j < dstOff + min I2C_BUFFERSIZE len + (len - min I2C_BUFFERSIZE len)
        · rw [if_pos hx1, if_pos (by omega)]
          rw [Nat.mod_add_mod]
          congr 2
          omega
        · rw [if_neg hx1]
          by_cases hx2 : dstOff ≤ j ∧ j < dstOff + min I2C_BUFFERSIZE len
          · rw [if_pos hx2, if_pos (by omega)]
          · rw [if_neg hx2, if_neg (by omega)]

/-- When every bus read delivers a full buffer, `readBlock` reads exactly
`length` bytes and fills the caller's buffer from memory, handling the
bank split transparently. -/
theorem readBlockRun_spec (readRes : Nat → Nat) (rk : Nat) (mem dst : Nat → Nat)
    (a len : Nat) (hr : ∀ k, I2C_BUFFERSIZE ≤ readRes k) (hl : len < U32) :
    (readBlockRun readRes rk mem a dst len).1 = len
    ∧ ∀ j, (readBlockRun readRes rk mem a dst len).2.1 j
        = if j < len then mem ((a + j) % U32) else dst j := by
  by_cases hc : a < 65536 ∧ 65536 < (a + len) % U32
  · have hreal : 65536 < a + len ∧ a + len < U32 := by
      rcases hc with ⟨h1, h2⟩
      simp only [U32] at *
      omega
    have hsub : 65536 - a ≤ len := by omega
    have harith : (len + U32 - (65536 - a)) % U32 = len - (65536 - a) := by
      have e1 : len + U32 - (65536 - a) = U32 + (len - (65536 - a)) := by omega
      rw [e1, Nat.add_mod_left]
      exact Nat.mod_eq_of_lt (by omega)
    simp only [readBlockRun, if_pos hc, readLoopRun, harith]
    obtain ⟨L1c, L1d⟩ := readLoopRunF_spec (65536 - a) readRes rk mem a dst 0
      (65536 - a) (Nat.le_refl _) hr
    obtain ⟨L2c, L2d⟩ := readLoopRunF_spec (len - (65536 - a)) readRes
      (readLoopRunF (65536 - a) readRes rk mem a dst 0 (65536 - a)).2.2 mem 65536
      (readLoopRunF (65536 - a) readRes rk mem a dst 0 (65536 - a)).2.1
      (65536 - a) (len - (65536 - a)) (Nat.le_refl _) hr
    refine ⟨?_, ?_⟩
    · rw [L1c, L2c]
      omega
    · intro j
      rw [L2d j]
      by_cases hx1 : 65536 - a ≤ j ∧ j < 65536 - a + (len - (65536 - a))
      · rw [if_pos hx1, if_pos (by omega)]
        congr 2
        omega
      · rw [if_neg hx1, L1d j]
        by_cases hx2 : 0 ≤ j ∧ j < 0 + (65536 - a)
        · rw [if_pos hx2, if_pos (by omega)]
          congr 2
        · rw [if_neg hx2, if_neg (by omega)]
  · simp only [readBlockRun, if_neg hc, readLoopRun]
    obtain ⟨Lc, Ld⟩ := readLoopRunF_spec len readRes rk mem a dst 0 len
      (Nat.le_refl _) hr
    refine ⟨Lc, ?_⟩
    intro j
    rw [Ld j]
    by_cases hx : 0 ≤ j ∧ j < 0 + len
    · rw [if_pos hx, if_pos (by omega)]
      congr 2
    · rw [if_neg hx, if_neg (by omega)]

/-- C6: with the underlying bus transactions succeeding (every write
transaction reports status 0 and every read delivers a full buffer),
`writeBlockVerify` returns true exactly when every read-back byte equals
the corresponding buffer byte — hence false whenever any read-back byte
differs; the write is not rolled back (the final image is the chunked
write image whatever the comparison yields); and no automatic retry is
performed (the write transactions issued are exactly the chunk list,
once). -/
theorem writeBlockVerify_spec (wst readRes : Nat → Nat) (b mem d0 : Nat → Nat)
    (a len : Nat) (hw : ∀ k, wst k = 0) (hr : ∀ k, I2C_BUFFERSIZE ≤ readRes k)
    (hl : len < U32) :
    ((writeBlockVerifyRun wst readRes b mem a len d0).1 = true
      ↔ ∀ i < len, applyChunks b mem (writeBlockChunks a len) ((a + i) % U32) = b i)
    ∧ (writeBlockVerifyRun wst readRes b mem a len d0).2.1
        = applyChunks b mem (writeBlockChunks a len)
    ∧ (writeBlockVerifyRun wst readRes b mem a len d0).2.2
        = (writeBlockChunks a len).length := by
  obtain ⟨S1, S2, S3⟩ := pageBlockRunF_spec (len % U16) wst b mem a 0 (len % U16)
    true (Nat.le_refl _)
  have hall : ∀ i < (pageBlockChunksF (len % U16) a 0 (len % U16) true).length, wst i = 0 :=
    fun i _ => hw i
  have hst : (pageBlockRunF (len % U16) wst b mem a 0 (len % U16) true).1 = 0 := S1.mpr hall
  obtain ⟨hcount, hmem⟩ := S3 hall
  obtain ⟨Rc, Rd⟩ := readBlockRun_spec readRes 0
    (applyChunks b mem (pageBlockChunksF (len % U16) a 0 (len % U16) true)) d0 a len hr hl
  simp only [writeBlockVerifyRun, writeBlockVerifyAux, writeBlockChunks,
    pageBlockChunks, pageBlockRun, hmem, hcount]
  rw [if_neg (not_not_intro hst), if_neg (not_not_intro Rc)]
  refine ⟨?_, rfl, rfl⟩
  rw [List.all_eq_true]
  constructor
  · intro h i hi
    have h2 := h i (List.mem_range.mpr hi)
    simp only [Rd i, if_pos hi, beq_iff_eq] at h2
    exact h2
  · intro h i hi
    have hi2 := List.mem_range.mp hi
    simp only [Rd i, if_pos hi2, beq_iff_eq]
    exact h i hi2

/-- Witness for C6: a successful 5-byte verified write at address 100
over a zeroed memory returns true, since the read-back equals the
written buffer. -/
theorem writeBlockVerify_spec_witness :
    (∀ k : Nat, (fun _ : Nat => (0 : Nat)) k = 0)
    ∧ (∀ k : Nat, I2C_BUFFERSIZE ≤ (fun _ : Nat => (30 : Nat)) k)
    ∧ (5 : Nat) < U32
    ∧ (((writeBlockVerifyRun (fun _ => 0) (fun _ => 30) (fun _ => 9) (fun _ => 0) 100 5 (fun _ => 0)).1 = true
        ↔ ∀ i < 5, applyChunks (fun _ => 9) (fun _ => 0) (writeBlockChunks 100 5) ((100 + i) % U32) = 9)
      ∧ (writeBlockVerifyRun (fun _ => 0) (fun _ => 30) (fun _ => 9) (fun _ => 0) 100 5 (fun _ => 0)).2.1
          = applyChunks (fun _ => 9) (fun _ => 0) (writeBlockChunks 100 5)
      ∧ (writeBlockVerifyRun (fun _ => 0) (fun _ => 30) (fun _ => 9) (fun _ => 0) 100 5 (fun _ => 0)).2.2
          = (writeBlockChunks 100 5).length) :=
  ⟨fun _ => rfl, fun _ => Nat.le_refl _, by decide,
    writeBlockVerify_spec (fun _ => 0) (fun _ => 30) (fun _ => 9) (fun _ => 0)
      (fun _ => 0) 100 5 (fun _ => rfl) (fun _ => Nat.le_refl _) (by decide)⟩

theorem updStep_rv_rk (wst readRes : Nat → Nat) (junk : Nat → Nat → Nat)
    (b : Nat → Nat) (s : UpdSt) (addr off cnt : Nat) :
    (updStep wst readRes junk b s addr off cnt).rv = s.rv + min (readRes s.rk) cnt
    ∧ (updStep wst readRes junk b s addr off cnt).rk = s.rk + 1 := by
  simp only [updStep]
  split <;> exact ⟨rfl, rfl⟩

/-- The return value of `updateBlock` accumulates one full chunk count
per iteration when every read delivers a full buffer. -/
theorem updateBlockF_rv (fuel : Nat) : ∀ wst readRes junk b s addr off len,
    len ≤ fuel → (∀ k, I2C_BUFFERSIZE ≤ readRes k) →
    (updateBlockF fuel wst readRes junk b s addr off len).rv = s.rv + len := by
  induction fuel with
  | zero =>
    intro wst readRes junk b s addr off len hlen hr
    have h0 : len = 0 := Nat.le_zero.mp hlen
    subst h0
    rfl
  | succ fuel ih =>
    intro wst readRes junk b s addr off len hlen hr
    by_cases h0 : len = 0
    · subst h0
      rfl
    · have hpos : 0 < min I2C_BUFFERSIZE len := by
        simp only [I2C_BUFFERSIZE]
        omega
      simp only [updateBlockF, if_neg h0]
      rw [ih wst readRes junk b
        (updStep wst readRes junk b s addr off (min I2C_BUFFERSIZE len))
        ((addr + min I2C_BUFFERSIZE len) % U32) (off + min I2C_BUFFERSIZE len)
        (len - min I2C_BUFFERSIZE len) (by omega) hr]
      rw [(updStep_rv_rk wst readRes junk b s addr off (min I2C_BUFFERSIZE len)).1]
      have h30 := hr s.rk
      simp only [I2C_BUFFERSIZE] at *
      omega

/-- The return value and read-transaction count of the `updateBlock` loop
do not depend on the statuses of the write transactions it issues. -/
theorem updateBlockF_wst_indep (fuel : Nat) : ∀ wst wst2 readRes junk b s s2 addr off len,
    s.rv = s2.rv → s.rk = s2.rk →
    (updateBlockF fuel wst readRes junk b s addr off len).rv
      = (updateBlockF fuel wst2 readRes junk b s2 addr off len).rv
    ∧ (updateBlockF fuel wst readRes junk b s addr off len).rk
      = (updateBlockF fuel wst2 readRes junk b s2 addr off len).rk := by
  induction fuel with
  | zero =>
    intro wst wst2 readRes junk b s s2 addr off len hrv hrk
    exact ⟨hrv, hrk⟩
  | succ fuel ih =>
    intro wst wst2 readRes junk b s s2 addr off len hrv hrk
    by_cases h0 : len = 0
    · subst h0
      exact ⟨hrv, hrk⟩
    · simp only [updateBlockF, if_neg h0]
      apply ih
      · rw [(updStep_rv_rk wst readRes junk b s addr off (min I2C_BUFFERSIZE len)).1,
          (updStep_rv_rk wst2 readRes junk b s2 addr off (min I2C_BUFFERSIZE len)).1,
          hrv, hrk]
      · rw [(updStep_rv_rk wst readRes junk b s addr off (min I2C_BUFFERSIZE len)).2,
          (updStep_rv_rk wst2 readRes junk b s2 addr off (min I2C_BUFFERSIZE len)).2,
          hrk]

/-- When the target region already holds the requested bytes (and reads
succeed), every chunk compares equal, so the `updateBlock` loop issues no
write transaction and never changes memory. -/
theorem updateBlockF_nowrite (fuel : Nat) : ∀ wst readRes junk b s addr off len,
    len ≤ fuel → (∀ k, I2C_BUFFERSIZE ≤ readRes k) →
    (∀ i, i < len → s.mem ((addr + i) % U32) = b (off + i)) →
    (updateBlockF fuel wst readRes junk b s addr off len).wk = s.wk
    ∧ (updateBlockF fuel wst readRes junk b s addr off len).mem = s.mem := by
  induction fuel with
  | zero =>
    intro wst readRes junk b s addr off len hlen hr hmatch
    have h0 : len = 0 := Nat.le_zero.mp hlen
    subst h0
    exact ⟨rfl, rfl⟩
  | succ fuel ih =>
    intro wst readRes junk b s addr off len hlen hr hmatch
    by_cases h0 : len = 0
    · subst h0
      exact ⟨rfl, rfl⟩
    · have hpos : 0 < min I2C_BUFFERSIZE len := by
        simp only [I2C_BUFFERSIZE]
        omega
      have hsame : chunkSame b
          (readChunkBuf s.mem (junk s.rk) addr
            (min (readRes s.rk) (min I2C_BUFFERSIZE len)))
          off (min I2C_BUFFERSIZE len) = true := by
        rw [chunkSame, List.all_eq_true]
        intro i hi
        have hi2 := List.mem_range.mp hi
        have h30 := hr s.rk
        simp only [readChunkBuf]
        rw [if_pos (by simp only [I2C_BUFFERSIZE] at *; omega), beq_iff_eq]
        exact (hmatch i (by simp only [I2C_BUFFERSIZE] at hi2; omega)).symm
      simp only [updateBlockF, if_neg h0, updStep, if_pos hsame]
      apply ih
      · omega
      · exact hr
      · intro i hi
        rw [Nat.mod_add_mod]
        have h2 := hmatch (min I2C_BUFFERSIZE len + i) (by omega)
        have e1 : addr + (min I2C_BUFFERSIZE len + i)
            = addr + min I2C_BUFFERSIZE len + i := by omega
        have e2 : off + (min I2C_BUFFERSIZE len + i)
            = off + min I2C_BUFFERSIZE len + i := by omega
        rw [e1, e2] at h2
        exact h2

/-- C5: if the memory region already holds exactly the bytes of the
supplied buffer (and reads succeed), `updateBlock` issues zero write
transactions and leaves memory untouched. -/
theorem updateBlock_no_write (wst readRes : Nat → Nat) (junk : Nat → Nat → Nat)
    (b mem : Nat → Nat) (a len : Nat)
    (hr : ∀ k, I2C_BUFFERSIZE ≤ readRes k)
    (hmatch : ∀ i, i < len → mem ((a + i) % U32) = b i) :
    (updateBlockRun wst readRes junk b mem a len).wk = 0
    ∧ (updateBlockRun wst readRes junk b mem a len).mem = mem :=
  updateBlockF_nowrite len wst readRes junk b (UpdSt.mk mem 0 0 0) a 0 len
    (Nat.le_refl _) hr
    (fun i hi => by rw [Nat.zero_add]; exact hmatch i hi)

/-- Witness for C5: updating 3 bytes that already match the buffer issues
zero write transactions. -/
theorem updateBlock_no_write_witness :
    (∀ k : Nat, I2C_BUFFERSIZE ≤ (fun _ : Nat => (30 : Nat)) k)
    ∧ (∀ i, i < 3 → (fun x : Nat => x % 7) ((0 + i) % U32) = (fun i : Nat => i % 7) i)
    ∧ (updateBlockRun (fun _ => 7) (fun _ => 30) (fun _ _ => 0)
        (fun i => i % 7) (fun x => x % 7) 0 3).wk = 0
    ∧ (updateBlockRun (fun _ => 7) (fun _ => 30) (fun _ _ => 0)
        (fun i => i % 7) (fun x => x % 7) 0 3).mem = (fun x => x % 7) :=
  ⟨fun _ => Nat.le_refl _, by decide,
    (updateBlock_no_write (fun _ => 7) (fun _ => 30) (fun _ _ => 0)
      (fun i => i % 7) (fun x => x % 7) 0 3 (fun _ => Nat.le_refl _) (by decide)).1,
    (updateBlock_no_write (fun _ => 7) (fun _ => 30) (fun _ _ => 0)
      (fun i => i % 7) (fun x => x % 7) 0 3 (fun _ => Nat.le_refl _) (by decide)).2⟩

/-- C9 (amended): `updateBlock` discards the status of the write
transactions it issues through `_pageBlock`: its return value is
identical under any two write-status oracles, so a failing write inside
`updateBlock` is not reflected in its result (it surfaces only through
`updateBlockVerify`'s read-back comparison). -/
theorem updateBlock_ignores_write_status (wst wst2 readRes : Nat → Nat)
    (junk : Nat → Nat → Nat) (b mem : Nat → Nat) (a len : Nat) :
    (updateBlockRun wst readRes junk b mem a len).rv
      = (updateBlockRun wst2 readRes junk b mem a len).rv :=
  (updateBlockF_wst_indep len wst wst2 readRes junk b
    (UpdSt.mk mem 0 0 0) (UpdSt.mk mem 0 0 0) a 0 len rfl rfl).1

/-- Counterexample to C9 as stated: a 5-byte `updateBlock` whose single
write transaction is issued (`wk = 1`) and fails with status 7 still
returns 5 — the same result as the run whose write succeeds — so the bus
failure inside `updateBlock` is not surfaced to the caller. -/
theorem updateBlock_status_cex :
    (updateBlockRun (fun _ => 7) (fun _ => 30) (fun _ _ => 0)
        (fun _ => 1) (fun _ => 0) 0 5).wk = 1
    ∧ (updateBlockRun (fun _ => 7) (fun _ => 30) (fun _ _ => 0)
        (fun _ => 1) (fun _ => 0) 0 5).rv = 5
    ∧ (updateBlockRun (fun _ => 0) (fun _ => 30) (fun _ _ => 0)
        (fun _ => 1) (fun _ => 0) 0 5).rv = 5 := by
  refine ⟨?_, ?_, ?_⟩ <;> decide

/-- C10: `updateBlock` returns the total byte count delivered by its read
transactions: when every read delivers a full buffer the return value
equals the requested length whatever the memory content, the buffer, and
the write statuses (zero or all chunks rewritten); and
`updateBlockVerify`'s first check compares exactly this read count
against the requested length, returning false on mismatch. -/
theorem updateBlock_read_count (wst readRes : Nat → Nat) (junk : Nat → Nat → Nat)
    (b mem : Nat → Nat) (a len : Nat)
    (hr : ∀ k, I2C_BUFFERSIZE ≤ readRes k) :
    (updateBlockRun wst readRes junk b mem a len).rv = len
    ∧ (∀ wstx readResx junkx bx memx d0,
        (updateBlockRun wstx readResx junkx bx memx a len).rv ≠ len →
        updateBlockVerifyRun wstx readResx junkx bx memx a len d0 = false) := by
  refine ⟨?_, ?_⟩
  · have h := updateBlockF_rv len wst readRes junk b (UpdSt.mk mem 0 0 0) a 0 len
      (Nat.le_refl _) hr
    simpa using h
  · intro wstx readResx junkx bx memx d0 hne
    simp only [updateBlockVerifyRun, if_pos hne]

/-- Witness for C10: a 5-byte update over mismatching content (every
chunk rewritten) still returns 5, the read count. -/
theorem updateBlock_read_count_witness :
    (∀ k : Nat, I2C_BUFFERSIZE ≤ (fun _ : Nat => (30 : Nat)) k)
    ∧ (updateBlockRun (fun _ => 0) (fun _ => 30) (fun _ _ => 0)
        (fun _ => 1) (fun _ => 0) 0 5).rv = 5
    ∧ (∀ wstx readResx junkx bx memx d0,
        (updateBlockRun wstx readResx junkx bx memx 0 5).rv ≠ 5 →
        updateBlockVerifyRun wstx readResx junkx bx memx 0 5 d0 = false) :=
  ⟨fun _ => Nat.le_refl _,
    (updateBlock_read_count (fun _ => 0) (fun _ => 30) (fun _ _ => 0)
      (fun _ => 1) (fun _ => 0) 0 5 (fun _ => Nat.le_refl _)).1,
    (updateBlock_read_count (fun _ => 0) (fun _ => 30) (fun _ _ => 0)
      (fun _ => 1) (fun _ => 0) 0 5 (fun _ => Nat.le_refl _)).2⟩
